import Mathlib

/-!
Shallow embedding of `EntityCorrect.py` (class `EntityCorrect`): an entity
correction engine that compiles a synonym dictionary into a multi-pattern
automaton, scans input text for all dictionary occurrences, resolves
overlapping matches, maps them back to offsets and substitutes canonical
names.  Text is modelled as `List Char`; Python strings, lists and dicts are
modelled by executable Lean functions; the two runtime error sites of `run`
(the `list.pop` call that can raise `IndexError` and the `dict[...]` lookup
that can raise `KeyError`) are modelled with `Option`.
-/

namespace EntityCorrect

/-- Text and keys are lists of characters (Python `str`). -/
abbrev Str := List Char

/-- An entry of `word_index_list`: `(start_index, end_index, synonym)` as
returned by `get_index`.  Indices are `Int` because Python `str.find` returns
`-1` when the needle is absent. -/
abbrev Item := Int × Int × Str

/-- Python whitespace characters matched by the regex `\s` (ASCII range). -/
def isPySpace (c : Char) : Bool :=
  c = ' ' || c = '\t' || c = '\n' || c = '\r' || c = '\x0b' || c = '\x0c'

/-- Line 104: `re.sub('\s+', '', text_raw).strip()` removes every whitespace
character from the text (after which `strip` is a no-op). -/
def normalizeWS (s : Str) : Str :=
  s.filter (fun c => !isPySpace c)

/-- Least index `p` at which `pat` occurs in `s`, if any: the index returned
by Python `s.find(pat)` when non-negative. -/
def subFind (s pat : Str) : Option Nat :=
  (List.range (s.length + 1)).find? (fun p => decide ((s.drop p).take pat.length = pat))

/-- Python substring test `pat in s`. -/
def substrB (pat s : Str) : Bool :=
  (subFind s pat).isSome

/-- Python `s.find(pat)`: least occurrence index, or `-1`. -/
def pyFind (s pat : Str) : Int :=
  match subFind s pat with
  | some p => (p : Int)
  | none => -1

/-- Clamp a Python slice bound to an actual index: negative bounds count from
the end, out-of-range bounds are clamped. -/
def pyIdx (len : Nat) (i : Int) : Nat :=
  if i < 0 then ((len : Int) + i).toNat else min i.toNat len

/-- Python `s[:i]`. -/
def pyTakeTo (s : Str) (i : Int) : Str :=
  s.take (pyIdx s.length i)

/-- Python `s[a:b]`. -/
def pySlice (s : Str) (a b : Int) : Str :=
  (s.take (pyIdx s.length b)).drop (pyIdx s.length a)

/-- Fuel-driven worker for Python `s.split(sep)` with non-empty `sep`
(greedy leftmost, keeps empty parts). -/
def pySplitF : Nat → Str → Str → List Str
  | 0, s, _ => [s]
  | f + 1, s, sep =>
    match subFind s sep with
    | none => [s]
    | some p => s.take p :: pySplitF f (s.drop (p + sep.length)) sep

/-- Python `s.split(sep)` for non-empty `sep`; each recursion step consumes at
least one character, so `s.length + 1` units of fuel always suffice. -/
def pySplit (s sep : Str) : List Str :=
  pySplitF (s.length + 1) s sep

/-- Join a list of parts with a separator: `sep.join(parts)` in Python. -/
def pyJoin (sep : Str) : List Str → Str
  | [] => []
  | [x] => x
  | x :: y :: xs => x ++ sep ++ pyJoin sep (y :: xs)

/-- Fuel-driven worker for Python `s.replace(old, new)` with non-empty
`old`. -/
def pyReplaceF : Nat → Str → Str → Str → Str
  | 0, s, _, _ => s
  | f + 1, s, pat, rep =>
    match subFind s pat with
    | none => s
    | some p => s.take p ++ rep ++ pyReplaceF f (s.drop (p + pat.length)) pat rep

/-- Python `s.replace(old, new)`: every non-overlapping occurrence of `old`
in a single left-to-right pass is replaced by `new`.  The empty-pattern case
(`new` inserted at every boundary) is modelled separately, matching CPython. -/
def pyReplace (s pat rep : Str) : Str :=
  if pat = [] then rep ++ s.flatMap (fun c => c :: rep)
  else pyReplaceF (s.length + 1) s pat rep

/-- Python `dict` assignment `d[k] = v`: replace the value in place when the
key exists (insertion order is kept), otherwise append a binding. -/
def dictInsert (d : List (Str × Str)) (k v : Str) : List (Str × Str) :=
  if d.any (fun kv => decide (kv.1 = k)) then
    d.map (fun kv => if kv.1 = k then (k, v) else kv)
  else
    d ++ [(k, v)]

/-- Python `d[k]` as a total lookup (the keys of a dict built solely with
`dictInsert` are unique, so the first binding is the binding). -/
def dictLookup (d : List (Str × Str)) (k : Str) : Option Str :=
  (d.find? (fun kv => decide (kv.1 = k))).map (fun kv => kv.2)

/-- One iteration of the inner loop of `_get_synonym` (lines 52-60): key the
word `w` — through the transliteration `trans` when `use_pinyin` is set — to
the canonical name `std`, and append the key to the word list when new. -/
def synStepWord (trans : Str → Str) (use_pinyin : Bool) (std : Str)
    (acc : List (Str × Str) × List Str) (w : Str) : List (Str × Str) × List Str :=
  let key := if use_pinyin then trans w else w
  (dictInsert acc.1 key std,
   if key ∈ acc.2 then acc.2 else acc.2 ++ [key])

/-- Processing of one record by `_get_synonym`: the canonical name is the
first field and is itself keyed, followed by the variants. -/
def synStepRec (trans : Str → Str) (use_pinyin : Bool)
    (acc : List (Str × Str) × List Str) (r : Str × List Str) :
    List (Str × Str) × List Str :=
  (r.1 :: r.2).foldl (synStepWord trans use_pinyin r.1) acc

/-- Lines 40-61, `_get_synonym`: every field of a record (the canonical name
itself included) is keyed — through the transliteration `trans` when
`use_pinyin` is set — to the record's canonical name; keys are also collected,
without duplicates, into the word list fed to the automaton.  File parsing is
outside the spec's scope, so a record is modelled as the already-split line
`(canonical, variants)`; there is no error path. -/
def get_synonym (trans : Str → Str) (use_pinyin : Bool)
    (records : List (Str × List Str)) : List (Str × Str) × List Str :=
  records.foldl (synStepRec trans use_pinyin) ([], [])

/-- Lines 63-73, `_build_actree`: the compiled automaton is modelled by its
key set.  `ahocorasick.Automaton.add_word` refuses the empty string, so empty
words never become keys. -/
def build_actree (wordlist : List Str) : List Str :=
  wordlist.filter (fun w => decide (w ≠ []))

/-- Key `w` ends at character index `e` (inclusive) of `text`. -/
def endsAt (text w : Str) (e : Nat) : Bool :=
  decide (w.length ≤ e + 1 ∧ (text.drop (e + 1 - w.length)).take w.length = w)

/-- Modelled from the spec: `Automaton.iter` of the external `pyahocorasick`
library (the Pattern Automaton collaborator, not part of this repository)
reports every occurrence of every key, yielding `(end_index, key)` pairs in
order of end position. -/
def acIter (keys : List Str) (text : Str) : List (Nat × Str) :=
  (List.range text.length).flatMap
    (fun e => (keys.filter (fun w => endsAt text w e)).map (fun w => (e, w)))

/-- Lines 75-93, `get_index`.  In pinyin mode the start index is the number of
`'@@'`-separated segments before the first occurrence of `synonym` — note the
source hard-codes the two-character string `'@@'` here while the token count
of `synonym` uses the configured `splitter` — and in literal mode it is the
raw `find` result (`-1` when absent, as in Python). -/
def get_index (splitter : Str) (use_pinyin : Bool) (text synonym : Str) : Item :=
  if use_pinyin then
    let word_len : Int := (pySplit synonym splitter).length
    let start_index : Int := (pySplit (pyTakeTo text (pyFind text synonym)) ['@', '@']).length - 1
    (start_index, start_index + word_len, synonym)
  else
    let word_len : Int := synonym.length
    let start_index : Int := pyFind text synonym
    (start_index, start_index + word_len, synonym)

/-- One step of the inner loop of lines 124-127: append `i` to `del_index`
when `j` is a distinct occurrence whose match string contains
`match_synonym[i]` and `i` is not yet recorded. -/
def marksStep (msyn : List Str) (i : Nat) (a : List Nat) (j : Nat) : List Nat :=
  if i ≠ j ∧ substrB (msyn.getD i []) (msyn.getD j []) = true ∧ i ∉ a then
    a ++ [i]
  else a

/-- Inner loop of lines 124-127 for a fixed `i`: append `i` to the accumulator
at the first `j ≠ i` whose match string contains `match_synonym[i]`. -/
def marksInner (msyn : List Str) (i : Nat) (acc : List Nat) : List Nat :=
  (List.range msyn.length).foldl (marksStep msyn i) acc

/-- Lines 121-127: the `del_index` list — every occurrence index whose match
string is contained in a distinct occurrence's match string, in increasing
order. -/
def marks (msyn : List Str) : List Nat :=
  (List.range msyn.length).foldl (fun acc i => marksInner msyn i acc) []

/-- The `del_index` predicate of lines 124-127: occurrence `i`'s match string
is contained in the match string of some distinct occurrence `j`. -/
def markedP (msyn : List Str) (i : Nat) : Prop :=
  ∃ j ∈ List.range msyn.length, i ≠ j ∧ substrB (msyn.getD i []) (msyn.getD j []) = true

instance (msyn : List Str) (i : Nat) : Decidable (markedP msyn i) := by
  unfold markedP; infer_instance

/-- Python `l.pop(i)` for `i ≥ 0`: `none` models the `IndexError` raised when
`i` is out of range. -/
def pyPop {β : Type} (l : List β) (i : Nat) : Option (List β) :=
  if i < l.length then some (l.take i ++ l.drop (i + 1)) else none

/-- Lines 128-129: `for index in del_index: word_index_list.pop(index)` — the
pops are applied sequentially at the recorded (original) indices, and an
out-of-range pop aborts with `IndexError`. -/
def popFold {β : Type} (l : List β) : List Nat → Option (List β)
  | [] => some l
  | i :: is =>
    match pyPop l i with
    | none => none
    | some l' => popFold l' is

/-- Lines 133-141, the substitution loop: for each retained item look up the
canonical name (`KeyError` modelled as `none`), cut the literal
`text_raw[start:end]`, replace it throughout the accumulated text with the
canonical name, and record the pair and the canonical name (the latter only
on first sight). -/
def assembleCore (text_raw : Str) (dict : List (Str × Str)) :
    Str × List (Str × Str) × List Str → List Item →
    Option (Str × List (Str × Str) × List Str)
  | st, [] => some st
  | (u, rp, ns), (s, e, syn) :: rest =>
    match dictLookup dict syn with
    | none => none
    | some std =>
      assembleCore text_raw dict
        (pyReplace u (pySlice text_raw s e) std,
         rp ++ [(std, syn)],
         if std ∈ ns then ns else ns ++ [std])
        rest

/-- First-occurrence-order deduplication: the order-preserving reading of
`list(set(xs))` used for the final pair list (a Python `set` fixes no
iteration order; all theorems about the pair list rely only on membership and
duplicate-freeness, which hold for every enumeration order). -/
def dedupFirst {α : Type} [DecidableEq α] : List α → List α
  | [] => []
  | x :: xs => x :: (dedupFirst xs).filter (fun y => decide (y ≠ x))

/-- The `standard_namelist` accumulation of lines 140-141, as a fold:
append each canonical name on first sight only. -/
def nameFold (ns : List Str) (cs : List Str) : List Str :=
  cs.foldl (fun a x => if x ∈ a then a else a ++ [x]) ns

/-- The engine state set up by `__init__` (lines 33-38); the transliteration
adapter `self.pinyin` is an external collaborator and is passed separately as
a function. -/
structure Engine where
  synonym_dict : List (Str × Str)
  ac_synonym : List Str
  splitter_symbol : Str
  use_pinyin : Bool

/-- Lines 33-38, `__init__`: load the synonym dictionary and compile the
automaton from the word list. -/
def mkEngine (trans : Str → Str) (use_pinyin : Bool) (splitter : Str)
    (records : List (Str × List Str)) : Engine :=
  let sd := get_synonym trans use_pinyin records
  { synonym_dict := sd.1
    ac_synonym := build_actree sd.2
    splitter_symbol := splitter
    use_pinyin := use_pinyin }

/-- Back half of `run` (lines 128-144): apply the pop loop's outcome — an
`IndexError` aborts the call — then assemble the substitutions and finish by
deduplicating the pair list (line 142, `list(set(...))`). -/
def runFinish (text_raw : Str) (dict : List (Str × Str)) :
    Option (List Item) → Option (Str × List (Str × Str) × List Str)
  | none => none
  | some kept =>
    match assembleCore text_raw dict (text_raw, [], []) kept with
    | none => none
    | some (u, rp, ns) => some (u, dedupFirst rp, ns)

/-- Lines 95-144, `run`: normalize whitespace, optionally transliterate, scan
with the automaton, mark and pop overlapped occurrences, then substitute.
`none` models the uncaught `IndexError`/`KeyError` exceptions. -/
def run (trans : Str → Str) (eng : Engine) (t : Str) :
    Option (Str × List (Str × Str) × List Str) :=
  let text_raw := normalizeWS t
  let text_trans := if eng.use_pinyin then trans text_raw else text_raw
  let msyn := (acIter eng.ac_synonym text_trans).map (fun x => x.2)
  let items := msyn.map (get_index eng.splitter_symbol eng.use_pinyin text_trans)
  runFinish text_raw eng.synonym_dict (popFold items (marks msyn))

/-- State-threaded form of `run`: the method body (lines 95-144) contains no
assignment to `self`, it only reads `self.use_pinyin`,
`self.splitter_symbol`, `self.ac_synonym` and `self.synonym_dict`, so the
engine component passes through unchanged. -/
def runSt (trans : Str → Str) (eng : Engine) (t : Str) :
    Engine × Option (Str × List (Str × Str) × List Str) :=
  (eng, run trans eng t)

/-- The text scanned by `run` on input `t`: the whitespace-normalized text,
transliterated when pinyin mode is active. -/
def scannedOf (trans : Str → Str) (eng : Engine) (t : Str) : Str :=
  if eng.use_pinyin then trans (normalizeWS t) else normalizeWS t

/-- Modelled from the spec: the overlap resolver keeps exactly those
occurrences whose matchKey is not a substring of a distinct occurrence's
matchKey, in their original scan order. -/
def specKeep (msyn : List Str) (items : List Item) : List Item :=
  ((List.range msyn.length).filter
      (fun i =>
        !((List.range msyn.length).any
            (fun j => decide (j ≠ i) && substrB (msyn.getD i []) (msyn.getD j []))))).filterMap
    (fun i => items.get? i)

/-- Modelled from the spec: the phonetic offset mapper counts
configured-delimiter-separated segments preceding the first occurrence of the
match key, and adds the key's token count for the end index. -/
def specGetIndex (splitter : Str) (text synonym : Str) : Item :=
  let word_len : Int := (pySplit synonym splitter).length
  let start_index : Int := (pySplit (pyTakeTo text (pyFind text synonym)) splitter).length - 1
  (start_index, start_index + word_len, synonym)

/-- Modelled from the spec: span-indexed replacement, the alternative the
spec contrasts with the whole-text find/replace the code performs. -/
def spanReplace (s : Str) (a b : Nat) (rep : Str) : Str :=
  s.take a ++ rep ++ s.drop b

/-! ### Dictionary-construction lemmas (claim C4) -/

/-- A `dictLookup` succeeds exactly when some binding carries the key. -/
theorem dictLookup_isSome_iff (d : List (Str × Str)) (k : Str) :
    (dictLookup d k).isSome = true ↔ ∃ kv ∈ d, kv.1 = k := by
  unfold dictLookup
  constructor
  · intro h
    cases hf : List.find? (fun kv => decide (kv.1 = k)) d with
    | none => rw [hf] at h; simp at h
    | some kv =>
      have hp := List.find?_some (p := fun kv : Str × Str => decide (kv.1 = k)) hf
      exact ⟨kv, List.mem_of_find?_eq_some hf, of_decide_eq_true hp⟩
  · rintro ⟨kv, hmem, hk⟩
    cases hf : List.find? (fun kv => decide (kv.1 = k)) d with
    | none =>
      have := List.find?_eq_none.mp hf kv hmem
      simp [hk] at this
    | some kv' => simp [hf]

/-- Inserting any binding preserves the success of a lookup. -/
theorem dictLookup_isSome_dictInsert (d : List (Str × Str)) (k k' v : Str)
    (h : (dictLookup d k).isSome = true) :
    (dictLookup (dictInsert d k' v) k).isSome = true := by
  rw [dictLookup_isSome_iff] at h ⊢
  obtain ⟨kv, hmem, hk⟩ := h
  unfold dictInsert
  by_cases hany : d.any (fun kv => decide (kv.1 = k')) = true
  · simp only [hany, if_true]
    refine ⟨if kv.1 = k' then (k', v) else kv, List.mem_map.mpr ⟨kv, hmem, rfl⟩, ?_⟩
    by_cases hkk : kv.1 = k'
    · rw [if_pos hkk]
      exact (hkk ▸ hk : k' = k)
    · rw [if_neg hkk]
      exact hk
  · simp only [hany, if_false]
    exact ⟨kv, List.mem_append_left _ hmem, hk⟩

/-- Inserting a binding for `k` makes the lookup of `k` succeed. -/
theorem dictLookup_isSome_dictInsert_self (d : List (Str × Str)) (k v : Str) :
    (dictLookup (dictInsert d k v) k).isSome = true := by
  rw [dictLookup_isSome_iff]
  unfold dictInsert
  by_cases hany : d.any (fun kv => decide (kv.1 = k)) = true
  · simp only [hany, if_true]
    obtain ⟨kv, hmem, hk⟩ := List.any_eq_true.mp hany
    have hk' : kv.1 = k := of_decide_eq_true hk
    exact ⟨(k, v), List.mem_map.mpr ⟨kv, hmem, by rw [if_pos hk']⟩, rfl⟩
  · simp only [hany, if_false]
    exact ⟨(k, v), List.mem_append_right _ (by simp), rfl⟩

/-- One `_get_synonym` word step preserves word-list membership and lookup
success of any key. -/
theorem synStepWord_mono (trans : Str → Str) (up : Bool) (std : Str)
    (acc : List (Str × Str) × List Str) (w k : Str)
    (h : k ∈ acc.2 ∧ (dictLookup acc.1 k).isSome = true) :
    k ∈ (synStepWord trans up std acc w).2 ∧
    (dictLookup (synStepWord trans up std acc w).1 k).isSome = true := by
  unfold synStepWord
  refine ⟨?_, dictLookup_isSome_dictInsert _ _ _ _ h.2⟩
  by_cases hmem : (if up then trans w else w) ∈ acc.2 <;>
    simp [hmem, h.1, List.mem_append]

/-- A fold of `_get_synonym` word steps preserves word-list membership and
lookup success of any key. -/
theorem synWordFold_mono (trans : Str → Str) (up : Bool) (std : Str) (k : Str) :
    ∀ (ws : List Str) (acc : List (Str × Str) × List Str),
    k ∈ acc.2 ∧ (dictLookup acc.1 k).isSome = true →
    k ∈ (ws.foldl (synStepWord trans up std) acc).2 ∧
    (dictLookup (ws.foldl (synStepWord trans up std) acc).1 k).isSome = true := by
  intro ws
  induction ws with
  | nil => intro acc h; exact h
  | cons w ws ih =>
    intro acc h
    exact ih _ (synStepWord_mono trans up std acc w k h)

/-- A fold of `_get_synonym` record steps preserves word-list membership and
lookup success of any key. -/
theorem synRecFold_mono (trans : Str → Str) (up : Bool) (k : Str) :
    ∀ (recs : List (Str × List Str)) (acc : List (Str × Str) × List Str),
    k ∈ acc.2 ∧ (dictLookup acc.1 k).isSome = true →
    k ∈ (recs.foldl (synStepRec trans up) acc).2 ∧
    (dictLookup (recs.foldl (synStepRec trans up) acc).1 k).isSome = true := by
  intro recs
  induction recs with
  | nil => intro acc h; exact h
  | cons r recs ih =>
    intro acc h
    exact ih _ (synWordFold_mono trans up r.1 k (r.1 :: r.2) acc h)

/-- Processing one record establishes its canonical name's key in both the
dictionary and the word list. -/
theorem synStepRec_self (trans : Str → Str) (up : Bool)
    (acc : List (Str × Str) × List Str) (std : Str) (vars : List Str) :
    (if up then trans std else std) ∈ (synStepRec trans up acc (std, vars)).2 ∧
    (dictLookup (synStepRec trans up acc (std, vars)).1
      (if up then trans std else std)).isSome = true := by
  unfold synStepRec
  simp only [List.foldl_cons]
  apply synWordFold_mono
  constructor
  · unfold synStepWord
    by_cases hmem : (if up then trans std else std) ∈ acc.2 <;>
      simp [hmem, List.mem_append]
  · exact dictLookup_isSome_dictInsert_self _ _ _

/-! ### Claim theorems C1, C3, C4, C9 -/

/-- Claim C1 (code-bug evidence).  On automaton keys `a` and `ab` and scanned
text `aab`, the scan yields occurrences of `a`, `a`, `ab` in order; the
resolver marks exactly the two `a` occurrences (indices 0 and 1) for discard,
as the claim describes, but the positional `pop` loop then removes the items
at positions 0 and 2 of the shrinking list, so the surviving occurrence is
the discarded `a` match `(0, 1, a)` instead of the `ab` match `(1, 3, ab)`
that the claim (and the source's own rule comment at line 116) mandates,
which `specKeep` computes. -/
theorem claim_C1_pop_shift_bug :
    (acIter (build_actree [['a'], ['a', 'b']]) ['a', 'a', 'b']).map (fun x => x.2)
      = [['a'], ['a'], ['a', 'b']] ∧
    marks [['a'], ['a'], ['a', 'b']] = [0, 1] ∧
    popFold ([['a'], ['a'], ['a', 'b']].map (get_index ['@', '@'] false ['a', 'a', 'b']))
        (marks [['a'], ['a'], ['a', 'b']])
      = some [((0 : Int), (1 : Int), ['a'])] ∧
    specKeep [['a'], ['a'], ['a', 'b']]
        ([['a'], ['a'], ['a', 'b']].map (get_index ['@', '@'] false ['a', 'a', 'b']))
      = [((1 : Int), (3 : Int), ['a', 'b'])] := by
  decide

/-- Claim C3 (code-bug evidence).  With configured delimiter `##`, scanned
text `a##b` and matchKey `b`, the offset mapper counts `'@@'`-separated
segments (the hard-coded literal at line 87) and returns `(0, 1)`, whereas
counting configured-delimiter-separated segments as the claim states —
computed by `specGetIndex` — gives `(1, 2)`. -/
theorem claim_C3_hardcoded_delimiter :
    get_index ['#', '#'] true ['a', '#', '#', 'b'] ['b'] = ((0 : Int), (1 : Int), ['b']) ∧
    specGetIndex ['#', '#'] ['a', '#', '#', 'b'] ['b'] = ((1 : Int), (2 : Int), ['b']) ∧
    get_index ['#', '#'] true ['a', '#', '#', 'b'] ['b']
      ≠ specGetIndex ['#', '#'] ['a', '#', '#', 'b'] ['b'] := by
  decide

/-- Claim C4 counterexample.  Dictionary construction has no failure path:
the dictionary whose first record is the canonical name `农业银行` with zero
variants is accepted, the canonical name is registered as a variant of
itself, and the remaining record is fully loaded (`招行` maps to
`招商银行`) — the construction is not rejected with a `DictionaryLoadError`
as the claim states. -/
theorem claim_C4_counterexample :
    get_synonym id false [(['农', '业', '银', '行'], []), (['招', '商', '银', '行'], [['招', '行']])]
      = ([(['农', '业', '银', '行'], ['农', '业', '银', '行']),
          (['招', '商', '银', '行'], ['招', '商', '银', '行']),
          (['招', '行'], ['招', '商', '银', '行'])],
         [['农', '业', '银', '行'], ['招', '商', '银', '行'], ['招', '行']]) ∧
    dictLookup
        (get_synonym id false
          [(['农', '业', '银', '行'], []), (['招', '商', '银', '行'], [['招', '行']])]).1
        ['招', '行']
      = some ['招', '商', '银', '行'] := by
  decide

/-- Claim C4 as amended: dictionary construction never fails; a record with
zero variants is accepted, and its canonical name is registered as a variant
of itself — its match key enters the automaton word list and looks up to a
canonical name in the synonym dictionary. -/
theorem claim_C4_zero_variant_accepted (trans : Str → Str) (up : Bool)
    (recs : List (Str × List Str)) (std : Str) (h : (std, []) ∈ recs) :
    (if up then trans std else std) ∈ (get_synonym trans up recs).2 ∧
    (dictLookup (get_synonym trans up recs).1 (if up then trans std else std)).isSome = true := by
  unfold get_synonym
  generalize hacc : (([], []) : List (Str × Str) × List Str) = acc
  clear hacc
  induction recs generalizing acc with
  | nil => cases h
  | cons r recs ih =>
    rcases List.mem_cons.mp h with hr | hr
    · subst hr
      simp only [List.foldl_cons]
      exact synRecFold_mono trans up _ recs _ (synStepRec_self trans up acc std [])
    · exact ih hr _

/-- Witness for the amended claim C4 at the concrete dictionary of the spec's
scenario. -/
theorem claim_C4_zero_variant_accepted_witness :
    (if false then id ['农', '业', '银', '行'] else ['农', '业', '银', '行'])
      ∈ (get_synonym id false
          [(['农', '业', '银', '行'], []), (['招', '商', '银', '行'], [['招', '行']])]).2 ∧
    (dictLookup
        (get_synonym id false
          [(['农', '业', '银', '行'], []), (['招', '商', '银', '行'], [['招', '行']])]).1
        (if false then id ['农', '业', '银', '行'] else ['农', '业', '银', '行'])).isSome = true :=
  claim_C4_zero_variant_accepted id false
    [(['农', '业', '银', '行'], []), (['招', '商', '银', '行'], [['招', '行']])]
    ['农', '业', '银', '行'] (by decide)

/-! ### Scan lemmas (claims C2 and C6) -/

/-- Claim C2: the automaton scan is complete — for every compiled dictionary
and every scanned text, every occurrence of every (non-empty) word-list key
is reported, at its end position; nothing restricts this to non-overlapping
or non-nested occurrences, so substring and overlapping occurrences are all
included. -/
theorem claim_C2_scan_complete (keys : List Str) (text w : Str) (p : Nat)
    (hmem : w ∈ keys) (hne : w ≠ []) (hlen : p + w.length ≤ text.length)
    (hocc : (text.drop p).take w.length = w) :
    (p + w.length - 1, w) ∈ acIter (build_actree keys) text := by
  have hwpos : 0 < w.length := List.length_pos.mpr hne
  have he1 : p + w.length - 1 + 1 = p + w.length := by omega
  unfold acIter
  refine List.mem_flatMap.mpr ⟨p + w.length - 1, List.mem_range.mpr (by omega), ?_⟩
  refine List.mem_map.mpr ⟨w, ?_, rfl⟩
  refine List.mem_filter.mpr ⟨List.mem_filter.mpr ⟨hmem, decide_eq_true hne⟩, ?_⟩
  unfold endsAt
  apply decide_eq_true
  refine ⟨by omega, ?_⟩
  rw [he1]
  rw [show p + w.length - w.length = p from by omega]
  exact hocc

/-- Witness for claim C2: with keys `b` and `ab` and text `ab`, the nested
occurrence of `b` at end position 1 is reported. -/
theorem claim_C2_scan_complete_witness :
    ((1 : Nat), (['b'] : Str)) ∈ acIter (build_actree [['b'], ['a', 'b']]) ['a', 'b'] :=
  claim_C2_scan_complete [['b'], ['a', 'b']] ['a', 'b'] ['b'] 1
    (by decide) (by decide) (by decide) (by decide)

/-- A key that ends somewhere inside the text occurs in the text. -/
theorem subFind_isSome_of_endsAt (text w : Str) (e : Nat)
    (he : e < text.length) (h : endsAt text w e = true) :
    (subFind text w).isSome = true := by
  have h' := of_decide_eq_true h
  obtain ⟨hle, heq⟩ := h'
  unfold subFind
  rw [List.find?_isSome]
  exact ⟨e + 1 - w.length, List.mem_range.mpr (by omega), decide_eq_true heq⟩

/-- If no automaton key occurs in the text, the scan reports nothing. -/
theorem acIter_eq_nil (keys : List Str) (text : Str)
    (h : ∀ w ∈ keys, subFind text w = none) :
    acIter keys text = [] := by
  unfold acIter
  rw [List.flatMap_eq_nil_iff]
  intro e hemem
  rw [List.map_eq_nil_iff, List.filter_eq_nil_iff]
  intro w hw hends
  have := subFind_isSome_of_endsAt text w e (List.mem_range.mp hemem) hends
  rw [h w hw] at this
  simp at this

/-- Claim C6: when no automaton key occurs in the scanned text (which
includes the empty text), `run` succeeds and returns the
whitespace-normalized input unchanged, with an empty pair set and an empty
canonical-name list. -/
theorem claim_C6_no_match_identity (trans : Str → Str) (eng : Engine) (t : Str)
    (h : ∀ w ∈ eng.ac_synonym, subFind (scannedOf trans eng t) w = none) :
    run trans eng t = some (normalizeWS t, [], []) := by
  simp only [scannedOf] at h
  have hnil : acIter eng.ac_synonym
      (if eng.use_pinyin then trans (normalizeWS t) else normalizeWS t) = [] :=
    acIter_eq_nil _ _ h
  simp only [run, hnil, List.map_nil]
  rfl

/-- Witness for claim C6: an engine whose sole key is `ab` leaves the
whitespace-stripped text `x y` unchanged. -/
theorem claim_C6_no_match_identity_witness :
    run id (mkEngine id false ['@', '@'] [(['a', 'b'], [])]) ['x', ' ', 'y']
      = some (['x', 'y'], [], []) :=
  claim_C6_no_match_identity id (mkEngine id false ['@', '@'] [(['a', 'b'], [])])
    ['x', ' ', 'y'] (by decide)

/-! ### Overlap-resolver marking lemmas (claim C10) -/

/-- Every string contains itself. -/
theorem substrB_refl (w : Str) : substrB w w = true := by
  unfold substrB subFind
  rw [List.find?_isSome]
  exact ⟨0, List.mem_range.mpr (Nat.succ_pos _),
    decide_eq_true (by simp)⟩

/-- Once `i` is recorded in `del_index`, the inner loop never touches it
again. -/
theorem marksStep_noop (msyn : List Str) (i : Nat) (a : List Nat) (j : Nat)
    (h : i ∈ a) : marksStep msyn i a j = a := by
  unfold marksStep
  rw [if_neg]
  intro hc
  exact hc.2.2 h

/-- Folding the inner-loop step over any index list leaves a recorded `i`
untouched. -/
theorem marksStep_fold_noop (msyn : List Str) (i : Nat) :
    ∀ (js : List Nat) (a : List Nat), i ∈ a →
    js.foldl (marksStep msyn i) a = a := by
  intro js
  induction js with
  | nil => intro a _; rfl
  | cons j js ih =>
    intro a h
    rw [List.foldl_cons, marksStep_noop msyn i a j h]
    exact ih a h

/-- Characterization of the inner loop: `i` is appended exactly when some
`j` in the scanned index list is a distinct occurrence whose match string
contains `match_synonym[i]`, and `i` is not yet recorded. -/
theorem marksStep_fold_char (msyn : List Str) (i : Nat) :
    ∀ (js : List Nat) (a : List Nat),
    js.foldl (marksStep msyn i) a =
      if (∃ j ∈ js, i ≠ j ∧ substrB (msyn.getD i []) (msyn.getD j []) = true) ∧ i ∉ a then
        a ++ [i]
      else a := by
  intro js
  induction js with
  | nil => intro a; simp
  | cons j js ih =>
    intro a
    rw [List.foldl_cons]
    by_cases hmem : i ∈ a
    · rw [marksStep_noop msyn i a j hmem, ih a, if_neg, if_neg]
      · intro hc; exact hc.2 hmem
      · intro hc; exact hc.2 hmem
    · by_cases hj : i ≠ j ∧ substrB (msyn.getD i []) (msyn.getD j []) = true
      · rw [show marksStep msyn i a j = a ++ [i] from by
              unfold marksStep; rw [if_pos ⟨hj.1, hj.2, hmem⟩]]
        rw [marksStep_fold_noop msyn i js (a ++ [i]) (by simp)]
        rw [if_pos ⟨⟨j, by simp, hj⟩, hmem⟩]
      · rw [show marksStep msyn i a j = a from by
              unfold marksStep
              rw [if_neg]
              intro hc
              exact hj ⟨hc.1, hc.2.1⟩]
        rw [ih a]
        by_cases hex : ∃ j' ∈ js, i ≠ j' ∧ substrB (msyn.getD i []) (msyn.getD j' []) = true
        · rw [if_pos ⟨hex, hmem⟩, if_pos ?_]
          obtain ⟨j', hj'mem, hj'⟩ := hex
          exact ⟨⟨j', by simp [hj'mem], hj'⟩, hmem⟩
        · rw [if_neg, if_neg]
          · intro hc
            obtain ⟨⟨j', hj'mem, hj'⟩, _⟩ := hc
            rcases List.mem_cons.mp hj'mem with h | h
            · exact hj (h ▸ hj')
            · exact hex ⟨j', h, hj'⟩
          · intro hc; exact hex hc.1

/-- Closed form of the inner loop of lines 124-127. -/
theorem marksInner_char (msyn : List Str) (i : Nat) (acc : List Nat) :
    marksInner msyn i acc =
      if markedP msyn i ∧ i ∉ acc then acc ++ [i] else acc := by
  unfold marksInner markedP
  rw [marksStep_fold_char]

/-- The outer fold of lines 121-127 records, in increasing order, exactly the
occurrence indices whose match string is contained in a distinct occurrence's
match string. -/
theorem marks_outer_char (msyn : List Str) :
    ∀ (is : List Nat) (acc : List Nat), is.Nodup → (∀ i ∈ is, i ∉ acc) →
    is.foldl (fun acc i => marksInner msyn i acc) acc
      = acc ++ is.filter (fun i => decide (markedP msyn i)) := by
  intro is
  induction is with
  | nil => intro acc _ _; simp
  | cons i is ih =>
    intro acc hnd hdisj
    rw [List.foldl_cons]
    have hnd' := List.nodup_cons.mp hnd
    have hinotacc : i ∉ acc := hdisj i (by simp)
    rw [marksInner_char]
    by_cases hp : markedP msyn i
    · rw [if_pos ⟨hp, hinotacc⟩]
      rw [ih (acc ++ [i]) hnd'.2 ?_]
      · simp [List.filter_cons, hp]
      · intro i' hi'
        simp only [List.mem_append, List.mem_singleton]
        rintro (h | h)
        · exact hdisj i' (by simp [hi']) h
        · exact hnd'.1 (h ▸ hi')
    · rw [if_neg (fun hc => hp hc.1)]
      rw [ih acc hnd'.2 (fun i' hi' => hdisj i' (by simp [hi']))]
      simp [List.filter_cons, hp]

/-- The `del_index` list is the list of marked indices, in increasing
order. -/
theorem marks_eq_filter (msyn : List Str) :
    marks msyn = (List.range msyn.length).filter (fun i => decide (markedP msyn i)) := by
  unfold marks
  rw [marks_outer_char msyn (List.range msyn.length) [] (List.nodup_range _)
      (fun i _ => List.not_mem_nil i)]
  simp

/-- Element of a replicated list. -/
theorem getD_replicate (w : Str) (n i : Nat) (h : i < n) :
    (List.replicate n w).getD i [] = w := by
  induction n generalizing i with
  | zero => omega
  | succ n ih =>
    cases i with
    | zero => rfl
    | succ i => exact ih i (by omega)

/-- When all `n ≥ 2` occurrences carry the same key, every index is
marked. -/
theorem marks_replicate (w : Str) (n : Nat) (hn : 2 ≤ n) :
    marks (List.replicate n w) = List.range n := by
  rw [marks_eq_filter]
  simp only [List.length_replicate]
  apply List.filter_eq_self.mpr
  intro i hi
  apply decide_eq_true
  have hiltn : i < n := List.mem_range.mp hi
  refine ⟨if i = 0 then 1 else 0, List.mem_range.mpr ?_, ?_, ?_⟩
  · by_cases h0 : i = 0 <;> simp [h0] <;> omega
  · by_cases h0 : i = 0 <;> simp [h0, Ne]
  · rw [getD_replicate w n i hiltn, getD_replicate w n _ ?_]
    · exact substrB_refl w
    · by_cases h0 : i = 0 <;> simp [h0] <;> omega

/-- Popping a run of consecutive original indices off a list that is at most
twice as long as half the run fails: some pop lands beyond the shrunken
list's end. -/
theorem popFold_range'_none {β : Type} :
    ∀ (m a : Nat) (l : List β), 1 ≤ m → l.length ≤ a + 2 * (m - 1) →
    popFold l (List.range' a m) = none := by
  intro m
  induction m with
  | zero => intro a l h; omega
  | succ m ih =>
    intro a l _ hlen
    rw [show List.range' a (m + 1) = a :: List.range' (a + 1) m from rfl]
    unfold popFold pyPop
    by_cases ha : a < l.length
    · rw [if_pos ha]
      cases m with
      | zero => omega
      | succ m' =>
        apply ih (a + 1) _ (by omega)
        have : (l.take a ++ l.drop (a + 1)).length = l.length - 1 := by
          simp [List.length_take, List.length_drop]
          omega
        omega
    · rw [if_neg ha]

/-- Claim C10: whenever the same match key occupies two distinct occurrence
positions, each of the two is marked for discard (its string is a substring
of the other's equal string); and when the scanned occurrences consist
exclusively of `n ≥ 2` copies of one repeated key, every index is marked and
the positional pop loop fails (`IndexError`), so no occurrence list at all —
in particular no occurrence of the repeated key — survives resolution. -/
theorem claim_C10_repeated_key_discarded :
    (∀ (msyn : List Str) (i j : Nat), i < msyn.length → j < msyn.length →
      i ≠ j → msyn.getD i [] = msyn.getD j [] → i ∈ marks msyn) ∧
    (∀ (w : Str) (n : Nat) (items : List Item), 2 ≤ n → items.length = n →
      popFold items (marks (List.replicate n w)) = none) := by
  constructor
  · intro msyn i j hi hj hij heq
    rw [marks_eq_filter]
    refine List.mem_filter.mpr ⟨List.mem_range.mpr hi, decide_eq_true ?_⟩
    exact ⟨j, List.mem_range.mpr hj, hij, heq ▸ substrB_refl _⟩
  · intro w n items hn hlen
    rw [marks_replicate w n hn, List.range_eq_range']
    exact popFold_range'_none n 0 items (by omega) (by omega)

/-- Witness for claim C10: two occurrences of the key `a` — index 0 is
marked, and resolution of the two-element item list fails. -/
theorem claim_C10_repeated_key_discarded_witness :
    0 ∈ marks [['a'], ['a']] ∧
    popFold ([((0 : Int), (1 : Int), ['a']), ((0 : Int), (1 : Int), ['a'])] : List Item)
        (marks (List.replicate 2 ['a'])) = none :=
  ⟨claim_C10_repeated_key_discarded.1 [['a'], ['a']] 0 1 (by decide) (by decide)
      (by decide) (by decide),
   claim_C10_repeated_key_discarded.2 ['a'] 2 _ (by decide) (by decide)⟩

/-- Claim C8 (code-bug evidence).  For the dictionary `{cd: [a]}` (canonical
`cd`, variant `a` — the canonical name is registered only under its own
entry) and input `a-cd`, the first `run` succeeds and corrects the text to
`cd-cd`; running the engine on `cd-cd` then raises `IndexError` in the
overlap-resolution pop loop (both occurrences of the repeated key `cd` get
marked and popped positionally), so `run(run(T).correctedText)` fails
instead of returning `cd-cd` unchanged. -/
theorem claim_C8_second_run_fails :
    (run id (mkEngine id false ['@', '@'] [(['c', 'd'], [['a']])]) ['a', '-', 'c', 'd']).map
        (fun r => r.1)
      = some ['c', 'd', '-', 'c', 'd'] ∧
    run id (mkEngine id false ['@', '@'] [(['c', 'd'], [['a']])]) ['c', 'd', '-', 'c', 'd']
      = none := by
  decide

/-! ### Replacement lemmas (claim C5) -/

/-- A split never yields an empty part list. -/
theorem pySplitF_ne_nil (f : Nat) (s sep : Str) : pySplitF f s sep ≠ [] := by
  cases f with
  | zero => simp [pySplitF]
  | succ f =>
    unfold pySplitF
    cases subFind s sep <;> simp

/-- Joining a cons with a non-empty tail prepends the head and one
separator. -/
theorem pyJoin_cons (sep x : Str) (l : List Str) (h : l ≠ []) :
    pyJoin sep (x :: l) = x ++ sep ++ pyJoin sep l := by
  cases l with
  | nil => exact absurd rfl h
  | cons y ys => rfl

/-- At equal fuel, replacement is the separator-join of the split parts:
every part produced by the greedy whole-text split is kept and every
separator occurrence is replaced. -/
theorem pyReplaceF_eq_join (f : Nat) :
    ∀ (s pat rep : Str), pyReplaceF f s pat rep = pyJoin rep (pySplitF f s pat) := by
  induction f with
  | zero => intro s pat rep; rfl
  | succ f ih =>
    intro s pat rep
    cases h : subFind s pat with
    | none => simp only [pyReplaceF, pySplitF, h, pyJoin]
    | some p =>
      simp only [pyReplaceF, pySplitF, h]
      rw [pyJoin_cons rep _ _ (pySplitF_ne_nil f _ pat), ih]

/-- Claim C5: the substitution assembler performs a whole-text find/replace.
First, for every non-empty pattern, `pyReplace` equals joining the greedy
whole-text split on the pattern with the replacement — every occurrence of
the pattern in the whole current text is replaced, wherever it occurs.
Second, each assembler step applies exactly this `pyReplace` of the matched
literal `text_raw[start:end]` to the entire accumulated corrected text.
Third, at a concrete input whose matched literal `ab` also occurs outside
the resolved span `[0,2)`, the assembler yields `CXC` — both occurrences
replaced — which differs from the span-indexed replacement `CXab`. -/
theorem claim_C5_whole_text_replace :
    (∀ (u pat rep : Str), pat ≠ [] → pyReplace u pat rep = pyJoin rep (pySplit u pat)) ∧
    (∀ (text : Str) (dict : List (Str × Str)) (u : Str) (rp : List (Str × Str))
        (ns : List Str) (s e : Int) (syn std : Str) (rest : List Item),
      dictLookup dict syn = some std →
      assembleCore text dict (u, rp, ns) ((s, e, syn) :: rest) =
        assembleCore text dict
          (pyReplace u (pySlice text s e) std, rp ++ [(std, syn)],
           if std ∈ ns then ns else ns ++ [std]) rest) ∧
    assembleCore ['a', 'b', 'X', 'a', 'b'] [(['a', 'b'], ['C'])]
        (['a', 'b', 'X', 'a', 'b'], [], []) [((0 : Int), (2 : Int), ['a', 'b'])]
      = some (['C', 'X', 'C'], [(['C'], ['a', 'b'])], [['C']]) ∧
    spanReplace ['a', 'b', 'X', 'a', 'b'] 0 2 ['C'] = ['C', 'X', 'a', 'b'] ∧
    (['C', 'X', 'C'] : Str) ≠ ['C', 'X', 'a', 'b'] := by
  refine ⟨?_, ?_, by decide, by decide, by decide⟩
  · intro u pat rep h
    unfold pyReplace pySplit
    rw [if_neg h]
    exact pyReplaceF_eq_join _ u pat rep
  · intro text dict u rp ns s e syn std rest hlook
    simp only [assembleCore, hlook]

/-- Witness for claim C5 at a concrete non-empty pattern. -/
theorem claim_C5_whole_text_replace_witness :
    pyReplace ['x', 'a'] ['a'] ['b', 'b'] = pyJoin ['b', 'b'] (pySplit ['x', 'a'] ['a']) :=
  claim_C5_whole_text_replace.1 ['x', 'a'] ['a'] ['b', 'b'] (by decide)

/-! ### Deduplication lemmas (claim C7) -/

/-- Deduplication commutes with filtering. -/
theorem dedupFirst_filter_comm (q : Str → Bool) :
    ∀ (m : List Str), dedupFirst (m.filter q) = (dedupFirst m).filter q := by
  intro m
  induction m with
  | nil => rfl
  | cons y ys ih =>
    by_cases hq : q y = true
    · rw [List.filter_cons_of_pos hq]
      simp only [dedupFirst]
      rw [List.filter_cons_of_pos hq, ih, List.filter_comm]
    · have hq' : q y = false := Bool.eq_false_iff.mpr hq
      rw [List.filter_cons_of_neg (by simp [hq'])]
      simp only [dedupFirst]
      rw [List.filter_cons_of_neg (by simp [hq']), List.filter_comm, ih]
      symm
      apply List.filter_eq_self.mpr
      intro z hz
      apply decide_eq_true
      intro hzy
      have hzq := (List.mem_filter.mp hz).2
      rw [hzy, hq'] at hzq
      exact Bool.false_ne_true hzq

/-- The first-sight name fold computes `dedupFirst` relative to the names
already collected. -/
theorem nameFold_general :
    ∀ (cs : List Str) (acc : List Str),
    nameFold acc cs = acc ++ dedupFirst (cs.filter (fun x => decide (x ∉ acc))) := by
  intro cs
  induction cs with
  | nil => intro acc; simp [nameFold, dedupFirst]
  | cons x xs ih =>
    intro acc
    unfold nameFold
    rw [List.foldl_cons]
    by_cases hx : x ∈ acc
    · rw [if_pos hx]
      have hstep := ih acc
      unfold nameFold at hstep
      rw [hstep]
      rw [List.filter_cons_of_neg (by simp [hx])]
    · rw [if_neg hx]
      have hstep := ih (acc ++ [x])
      unfold nameFold at hstep
      rw [hstep]
      rw [List.filter_cons_of_pos (by simp [hx])]
      have hff : xs.filter (fun y => decide (y ∉ acc ++ [x]))
          = (xs.filter (fun y => decide (y ∉ acc))).filter (fun y => decide (y ≠ x)) := by
        rw [List.filter_filter]
        apply List.filter_congr
        intro y _
        by_cases h1 : y ∈ acc <;> by_cases h2 : y = x <;> simp [h1, h2]
      rw [hff, dedupFirst_filter_comm]
      rw [show dedupFirst (x :: xs.filter (fun y => decide (y ∉ acc)))
            = x :: (dedupFirst (xs.filter (fun y => decide (y ∉ acc)))).filter
                (fun y => decide (y ≠ x)) from rfl]
      simp [List.append_assoc]

/-- The name fold from an empty accumulator is first-occurrence
deduplication. -/
theorem nameFold_eq_dedupFirst (cs : List Str) : nameFold [] cs = dedupFirst cs := by
  rw [nameFold_general cs []]
  simp

/-- `dedupFirst` keeps no duplicates. -/
theorem dedupFirst_nodup {α : Type} [DecidableEq α] :
    ∀ (l : List α), (dedupFirst l).Nodup := by
  intro l
  induction l with
  | nil => simp [dedupFirst]
  | cons x xs ih =>
    unfold dedupFirst
    refine List.nodup_cons.mpr ⟨?_, ih.filter _⟩
    intro hmem
    have := (List.mem_filter.mp hmem).2
    simp at this

/-- `dedupFirst` keeps exactly the elements of its input. -/
theorem mem_dedupFirst {α : Type} [DecidableEq α] (x : α) :
    ∀ (l : List α), x ∈ dedupFirst l ↔ x ∈ l := by
  intro l
  induction l with
  | nil => simp [dedupFirst]
  | cons y ys ih =>
    unfold dedupFirst
    by_cases hxy : x = y
    · simp [hxy]
    · simp only [List.mem_cons, List.mem_filter, ih]
      constructor
      · rintro (h | h)
        · exact absurd h hxy
        · exact Or.inr h.1
      · rintro (h | h)
        · exact absurd h hxy
        · exact Or.inr ⟨h, decide_eq_true hxy⟩

/-- The assembler appends its pairs to the incoming pair list and folds the
corresponding canonical names into the incoming name list on first sight. -/
theorem assembleCore_delta (text : Str) (dict : List (Str × Str)) :
    ∀ (items : List Item) (u : Str) (rp : List (Str × Str)) (ns : List Str)
      (res : Str × List (Str × Str) × List Str),
    assembleCore text dict (u, rp, ns) items = some res →
    ∃ delta : List (Str × Str),
      res.2.1 = rp ++ delta ∧ res.2.2 = nameFold ns (delta.map Prod.fst) := by
  intro items
  induction items with
  | nil =>
    intro u rp ns res h
    obtain rfl : (u, rp, ns) = res := Option.some.inj h
    exact ⟨[], by simp [nameFold]⟩
  | cons it rest ih =>
    intro u rp ns res h
    obtain ⟨s, e, syn⟩ := it
    unfold assembleCore at h
    cases hlook : dictLookup dict syn with
    | none => rw [hlook] at h; exact absurd h (by simp)
    | some std =>
      rw [hlook] at h
      obtain ⟨d', hd1, hd2⟩ := ih _ _ _ _ h
      refine ⟨(std, syn) :: d', ?_, ?_⟩
      · rw [hd1]; simp
      · rw [hd2]
        simp only [List.map_cons, nameFold, List.foldl_cons]

/-- A successful `runFinish` comes from a successful assembly whose pair
list is deduplicated in the returned result. -/
theorem runFinish_inversion (text_raw : Str) (dict : List (Str × Str))
    (kopt : Option (List Item)) (out : Str × List (Str × Str) × List Str)
    (h : runFinish text_raw dict kopt = some out) :
    ∃ kept rp,
      assembleCore text_raw dict (text_raw, [], []) kept = some (out.1, rp, out.2.2) ∧
      out.2.1 = dedupFirst rp := by
  cases kopt with
  | none => exact absurd h (by simp [runFinish])
  | some kept =>
    cases hasm : assembleCore text_raw dict (text_raw, [], []) kept with
    | none =>
      rw [show runFinish text_raw dict (some kept) =
            match assembleCore text_raw dict (text_raw, [], []) kept with
            | none => none
            | some (u, rp, ns) => some (u, dedupFirst rp, ns) from rfl, hasm] at h
      exact absurd h (by simp)
    | some st =>
      obtain ⟨u, rp, ns⟩ := st
      rw [show runFinish text_raw dict (some kept) =
            match assembleCore text_raw dict (text_raw, [], []) kept with
            | none => none
            | some (u, rp, ns) => some (u, dedupFirst rp, ns) from rfl, hasm] at h
      obtain rfl := Option.some.inj h
      exact ⟨kept, rp, by rw [hasm], rfl⟩

/-- Claim C7: in every result `run` returns, the pair list is the
deduplication of the raw emitted pair sequence (duplicate-free and with
exactly the raw pairs as members — its order is an enumeration of a Python
set, which fixes none), and the canonical-name list is the
first-occurrence-order deduplication of the raw canonical-name sequence
(the first components of the raw pairs, in emission order). -/
theorem claim_C7_results_deduplicated (trans : Str → Str) (eng : Engine) (t : Str)
    (out : Str × List (Str × Str) × List Str) (hrun : run trans eng t = some out) :
    ∃ raw : List (Str × Str),
      out.2.1 = dedupFirst raw ∧
      out.2.2 = dedupFirst (raw.map Prod.fst) ∧
      out.2.1.Nodup ∧ out.2.2.Nodup ∧
      (∀ p, p ∈ out.2.1 ↔ p ∈ raw) ∧
      (∀ c, c ∈ out.2.2 ↔ c ∈ raw.map Prod.fst) := by
  simp only [run] at hrun
  obtain ⟨kept, rp, hasm, hout⟩ := runFinish_inversion _ _ _ _ hrun
  obtain ⟨delta, hd1, hd2⟩ := assembleCore_delta _ _ kept _ _ _ _ hasm
  simp only at hd1 hd2
  rw [List.nil_append] at hd1
  subst hd1
  refine ⟨rp, hout, ?_, ?_, ?_, ?_, ?_⟩
  · rw [hd2, nameFold_eq_dedupFirst]
  · rw [hout]
    exact dedupFirst_nodup rp
  · rw [hd2, nameFold_eq_dedupFirst]
    exact dedupFirst_nodup _
  · intro p
    rw [hout]
    exact mem_dedupFirst p rp
  · intro c
    rw [hd2, nameFold_eq_dedupFirst]
    exact mem_dedupFirst c _

/-- Witness for claim C7: engine with canonical `B` and variant `a` on input
`xa` — the single pair `(B, a)` and name list `[B]` are the deduplications
of the raw sequences. -/
theorem claim_C7_results_deduplicated_witness :
    ∃ raw : List (Str × Str),
      [(['B'], ['a'])] = dedupFirst raw ∧
      [['B']] = dedupFirst (raw.map Prod.fst) ∧
      ([(['B'], ['a'])] : List (Str × Str)).Nodup ∧
      ([['B']] : List Str).Nodup ∧
      (∀ p, p ∈ ([(['B'], ['a'])] : List (Str × Str)) ↔ p ∈ raw) ∧
      (∀ c, c ∈ ([['B']] : List Str) ↔ c ∈ raw.map Prod.fst) :=
  claim_C7_results_deduplicated id
    ⟨[(['B'], ['B']), (['a'], ['B'])], [['B'], ['a']], ['@', '@'], false⟩
    ['x', 'a'] (['x', 'B'], [(['B'], ['a'])], [['B']]) (by decide)

/-- Claim C9: `run` leaves the engine state unchanged — the synonym
dictionary, the compiled automaton, the delimiter and the phonetic-mode flag
are identical before and after the call, and a repeated call on the
state returned by a first call behaves exactly like a call on the original
engine. -/
theorem claim_C9_engine_unchanged (trans : Str → Str) (eng : Engine) (t₁ t₂ : Str) :
    (runSt trans eng t₁).1.synonym_dict = eng.synonym_dict ∧
    (runSt trans eng t₁).1.ac_synonym = eng.ac_synonym ∧
    (runSt trans eng t₁).1.splitter_symbol = eng.splitter_symbol ∧
    (runSt trans eng t₁).1.use_pinyin = eng.use_pinyin ∧
    runSt trans (runSt trans eng t₁).1 t₂ = runSt trans eng t₂ :=
  ⟨rfl, rfl, rfl, rfl, rfl⟩

end EntityCorrect
